import Mathlib

/-!
Verification of the audio ring buffer and playback state machine of the
cafemp video player (src/video_player.cpp), as a shallow embedding in Lean.

The ring buffer is the byte array `ring_buffer[RING_BUFFER_SIZE]` together
with the three integers `ring_buffer_write_pos`, `ring_buffer_read_pos`,
`ring_buffer_fill`.  The producer side is the tail of `play_audio_frame`
(lines 71-84), the consumer side is `audio_callback` (lines 30-49), and the
reset is the locked block of `video_player_scrub` (lines 173-177).

The capacity `RING_BUFFER_SIZE` is a compile-time constant defined in
config.hpp (not part of the sources at hand), so the model is parametric in
a capacity `C`.
-/

namespace Cafemp

/-- Ring buffer state: the backing byte array (`ring_buffer`, modelled as a
list of bytes whose length is the capacity) and the three integers
`ring_buffer_write_pos`, `ring_buffer_read_pos`, `ring_buffer_fill`. -/
structure RB where
  buf : List Nat
  write_pos : Nat
  read_pos : Nat
  fill : Nat
  deriving Repr, DecidableEq

/-- Model of `memcpy(buf + pos, src, src.length)`: writes the bytes of
`src` into `buf` starting at index `pos` (positions past the end of `buf`
are ignored, as `List.set` is; the callers always stay in bounds). -/
def copyInto (buf : List Nat) (pos : Nat) : List Nat → List Nat
  | [] => buf
  | b :: rest => copyInto (buf.set pos b) (pos + 1) rest

/-- Producer: the ring-buffer part of `play_audio_frame`
(video_player.cpp lines 71-84).  A chunk `data` is accepted only when
`data_size <= RING_BUFFER_SIZE - ring_buffer_fill` (evaluated in `int`
arithmetic, hence the cast to `Int`); an accepted chunk is written as a
tail segment at `write_pos` followed by a head segment from index 0,
`write_pos` advances modulo the capacity and `fill` grows by the chunk
length.  Otherwise nothing at all happens. -/
def push (C : Nat) (st : RB) (data : List Nat) : RB :=
  if (data.length : Int) ≤ (C : Int) - (st.fill : Int) then
    let first_chunk := min (C - st.write_pos) data.length
    { buf := copyInto (copyInto st.buf st.write_pos (data.take first_chunk)) 0
        (data.drop first_chunk)
      write_pos := (st.write_pos + data.length) % C
      read_pos := st.read_pos
      fill := st.fill + data.length }
  else st

/-- Consumer: `audio_callback` (video_player.cpp lines 30-49).  Copies
`bytes_to_copy = min(len, fill)` bytes out, as a tail segment starting at
`read_pos` followed by a head segment from index 0, zero-fills the
shortfall `len - bytes_to_copy`, advances `read_pos` modulo the capacity
and decreases `fill`.  Returns the bytes written into `stream` and the new
buffer state. -/
def pull (C : Nat) (st : RB) (len : Nat) : List Nat × RB :=
  let bytes_to_copy := if len > st.fill then st.fill else len
  let first_chunk := min (C - st.read_pos) bytes_to_copy
  ((st.buf.drop st.read_pos).take first_chunk
     ++ st.buf.take (bytes_to_copy - first_chunk)
     ++ List.replicate (len - bytes_to_copy) 0,
   { st with
      read_pos := (st.read_pos + bytes_to_copy) % C
      fill := st.fill - bytes_to_copy })

/-- Reset: the locked block of `video_player_scrub` (lines 174-176) and the
teardown in `video_player_cleanup` (lines 294-296): `fill`, `read_pos` and
`write_pos` all become 0; the backing array is not touched. -/
def reset (st : RB) : RB :=
  { st with fill := 0, read_pos := 0, write_pos := 0 }

/-- Logical contents of the ring buffer: the `fill` bytes starting at
`read_pos`, wrapping around the end of the array. -/
def contents (st : RB) : List Nat :=
  ((st.buf.drop st.read_pos) ++ st.buf.take st.read_pos).take st.fill

/-- Structural invariant of the ring buffer: the backing array has exactly
the capacity, both cursors are inside the array, and the fill count never
exceeds the capacity. -/
def Inv (C : Nat) (st : RB) : Prop :=
  st.buf.length = C ∧ st.read_pos < C ∧ st.write_pos < C ∧ st.fill ≤ C

instance (C : Nat) (st : RB) : Decidable (Inv C st) :=
  decidable_of_iff
    (st.buf.length = C ∧ st.read_pos < C ∧ st.write_pos < C ∧ st.fill ≤ C)
    Iff.rfl

/-! Basic lemmas about `copyInto`. -/

theorem copyInto_length (src : List Nat) (buf : List Nat) (pos : Nat) :
    (copyInto buf pos src).length = buf.length := by
  induction src generalizing buf pos with
  | nil => rfl
  | cons b rest ih => simp [copyInto, ih]

theorem copyInto_getElem?_lt (src : List Nat) (buf : List Nat) (pos i : Nat)
    (h : i < pos) : (copyInto buf pos src)[i]? = buf[i]? := by
  induction src generalizing buf pos with
  | nil => rfl
  | cons b rest ih =>
      rw [copyInto, ih _ _ (Nat.lt_succ_of_lt h),
        List.getElem?_set_ne (Nat.ne_of_gt h)]

theorem copyInto_getElem?_ge (src : List Nat) (buf : List Nat) (pos i : Nat)
    (h : pos + src.length ≤ i) : (copyInto buf pos src)[i]? = buf[i]? := by
  induction src generalizing buf pos with
  | nil => rfl
  | cons b rest ih =>
      have h' : pos + 1 + rest.length ≤ i := by simp at h; omega
      rw [copyInto, ih _ _ h', List.getElem?_set_ne (by omega)]

theorem copyInto_getElem?_mem (src : List Nat) (buf : List Nat) (pos i : Nat)
    (hlo : pos ≤ i) (hhi : i < pos + src.length) (hin : i < buf.length) :
    (copyInto buf pos src)[i]? = src[i - pos]? := by
  induction src generalizing buf pos with
  | nil => simp at hhi; omega
  | cons b rest ih =>
      rw [copyInto]
      rcases Nat.eq_or_lt_of_le hlo with h | h
      · subst h
        rw [copyInto_getElem?_lt _ _ _ _ (Nat.lt_succ_self _),
          List.getElem?_set_self', Nat.sub_self]
        simp [hin]
      · rw [ih _ _ h (by simp at hhi ⊢; omega) (by simpa using hin)]
        have : i - pos = (i - (pos + 1)) + 1 := by omega
        simp [this]
/-! Modular index arithmetic helpers. -/

theorem mod_cases (a C : Nat) (h2 : a < C + C) :
    a % C = if a < C then a else a - C := by
  split
  case isTrue h => exact Nat.mod_eq_of_lt h
  case isFalse h =>
    rw [Nat.mod_eq_sub_mod (Nat.le_of_not_lt h), Nat.mod_eq_of_lt (by omega)]

theorem mod_inj_of_lt {C a b : Nat} (rp : Nat) (ha : a < C) (hb : b < C)
    (h : (rp + a) % C = (rp + b) % C) : a = b := by
  have h2 : a ≡ b [MOD C] := Nat.ModEq.add_left_cancel' rp h
  have h3 : a % C = b % C := h2
  rwa [Nat.mod_eq_of_lt ha, Nat.mod_eq_of_lt hb] at h3

/-- Reading the rotation of the backing array: index `j` of the list
`buf.drop rp ++ buf.take rp` is index `(rp + j) % C` of `buf`. -/
theorem rot_getElem? (buf : List Nat) (C rp j : Nat) (hbuf : buf.length = C)
    (hrp : rp < C) (hj : j < C) :
    (buf.drop rp ++ buf.take rp)[j]? = buf[(rp + j) % C]? := by
  rcases Nat.lt_or_ge j (C - rp) with h | h
  · rw [List.getElem?_append_left (by simp [hbuf]; omega), List.getElem?_drop,
      mod_cases _ C (by omega), if_pos (by omega)]
  · rw [List.getElem?_append_right (by simp [hbuf]; omega),
      mod_cases _ C (by omega), if_neg (by omega)]
    rw [List.getElem?_take_of_lt (by simp [hbuf]; omega)]
    congr 1
    simp [hbuf]
    omega

/-! Pointwise characterisation of the two-segment wrapped write performed by
`push`: newly written positions hold the chunk's bytes, all other positions
are untouched. -/

theorem wrapWrite_getElem?_new (buf data : List Nat) (C wp i : Nat)
    (hbuf : buf.length = C) (hwp : wp < C) (hL : data.length ≤ C)
    (hi : i < data.length) :
    (copyInto (copyInto buf wp (data.take (min (C - wp) data.length))) 0
        (data.drop (min (C - wp) data.length)))[(wp + i) % C]? = data[i]? := by
  set fc := min (C - wp) data.length with hfc
  have hfcL : fc ≤ data.length := Nat.min_le_right _ _
  have hfcC : fc ≤ C - wp := Nat.min_le_left _ _
  have hdropLen : (data.drop fc).length = data.length - fc := by simp
  have htakeLen : (data.take fc).length = fc := by simp [hfcL]
  rcases Nat.lt_or_ge i fc with h | h
  · -- the byte lands in the tail segment at wp + i
    have hpos : (wp + i) % C = wp + i := Nat.mod_eq_of_lt (by omega)
    rw [hpos, copyInto_getElem?_ge _ _ _ _ (by simp; omega),
      copyInto_getElem?_mem _ _ _ _ (by omega) (by omega) (by omega),
      Nat.add_sub_cancel_left, List.getElem?_take_of_lt h]
  · -- the byte lands in the head segment at wp + i - C
    have hfceq : fc = C - wp := by omega
    have hpos : (wp + i) % C = wp + i - C := by
      rw [mod_cases _ C (by omega), if_neg (by omega)]
    rw [hpos, copyInto_getElem?_mem _ _ _ _ (by omega) (by omega)
      (by rw [copyInto_length]; omega)]
    rw [List.getElem?_drop]
    congr 1
    omega

theorem wrapWrite_getElem?_old (buf data : List Nat) (C wp p : Nat)
    (hbuf : buf.length = C) (hwp : wp < C) (hL : data.length ≤ C)
    (hp : p < C) (hnot : ∀ i, i < data.length → p ≠ (wp + i) % C) :
    (copyInto (copyInto buf wp (data.take (min (C - wp) data.length))) 0
        (data.drop (min (C - wp) data.length)))[p]? = buf[p]? := by
  set fc := min (C - wp) data.length with hfc
  have hfcL : fc ≤ data.length := Nat.min_le_right _ _
  have hfcC : fc ≤ C - wp := Nat.min_le_left _ _
  have houter : data.length - fc ≤ p := by
    by_contra hcon
    push_neg at hcon
    have hfceq : fc = C - wp := by omega
    have : p = (wp + (p + fc)) % C := by
      rw [mod_cases _ C (by omega), if_neg (by omega)]
      omega
    exact hnot (p + fc) (by omega) this
  rw [copyInto_getElem?_ge _ _ _ _ (by simp; omega)]
  have hinner : p < wp ∨ wp + fc ≤ p := by
    by_contra hcon
    push_neg at hcon
    have : p = (wp + (p - wp)) % C := by
      rw [Nat.add_sub_cancel' hcon.1, Nat.mod_eq_of_lt hp]
    exact hnot (p - wp) (by omega) this
  rcases hinner with h | h
  · exact copyInto_getElem?_lt _ _ _ _ h
  · exact copyInto_getElem?_ge _ _ _ _ (by simp [hfcL]; omega)
/-! Equational forms of `push` and `pull`. -/

theorem push_accept_eq (C : Nat) (st : RB) (data : List Nat)
    (hfill : st.fill ≤ C) (hacc : data.length ≤ C - st.fill) :
    push C st data =
      { buf := copyInto (copyInto st.buf st.write_pos
            (data.take (min (C - st.write_pos) data.length))) 0
            (data.drop (min (C - st.write_pos) data.length))
        write_pos := (st.write_pos + data.length) % C
        read_pos := st.read_pos
        fill := st.fill + data.length } := by
  rw [push, if_pos (by omega)]

theorem push_reject_eq (C : Nat) (st : RB) (data : List Nat)
    (hfill : st.fill ≤ C) (hrej : C - st.fill < data.length) :
    push C st data = st := by
  rw [push, if_neg (by omega)]

theorem pull_min (len fill : Nat) :
    (if len > fill then fill else len) = min len fill := by
  split <;> omega

theorem pull_snd_eq (C : Nat) (st : RB) (len : Nat) :
    (pull C st len).2 =
      { st with
          read_pos := (st.read_pos + min len st.fill) % C
          fill := st.fill - min len st.fill } := by
  rw [pull]
  simp only [pull_min]

/-! Contents lemmas: how `push` and `pull` act on the logical byte queue. -/

theorem contents_length (C : Nat) (st : RB) (hbuf : st.buf.length = C)
    (hfill : st.fill ≤ C) : (contents st).length = st.fill := by
  simp [contents, hbuf]
  omega

theorem contents_push (C : Nat) (st : RB) (data : List Nat)
    (hbuf : st.buf.length = C) (hrp : st.read_pos < C) (hwp : st.write_pos < C)
    (hfill : st.fill ≤ C)
    (hcons : st.write_pos = (st.read_pos + st.fill) % C)
    (hacc : data.length ≤ C - st.fill) :
    contents (push C st data) = contents st ++ data := by
  have hC : 0 < C := by omega
  rw [push_accept_eq C st data hfill hacc]
  unfold contents
  simp only
  have hB'len :
      (copyInto (copyInto st.buf st.write_pos
          (data.take (min (C - st.write_pos) data.length))) 0
          (data.drop (min (C - st.write_pos) data.length))).length = C := by
    rw [copyInto_length, copyInto_length, hbuf]
  have htfl :
      ((st.buf.drop st.read_pos ++ st.buf.take st.read_pos).take st.fill).length
        = st.fill := by
    simp [hbuf]
    omega
  apply List.ext_getElem?
  intro n
  conv_rhs => rw [List.getElem?_append, htfl]
  rw [List.getElem?_take]
  by_cases hn1 : n < st.fill
  · rw [if_pos (by omega), if_pos hn1,
      rot_getElem? _ C _ _ hB'len hrp (by omega),
      wrapWrite_getElem?_old _ _ _ _ _ hbuf hwp (by omega)
        (Nat.mod_lt _ hC) ?hnot,
      ← rot_getElem? st.buf C _ _ hbuf hrp (by omega),
      List.getElem?_take_of_lt hn1]
    case hnot =>
      intro i hi heq
      rw [hcons, Nat.mod_add_mod, Nat.add_assoc] at heq
      have := mod_inj_of_lt st.read_pos (show n < C by omega)
        (show st.fill + i < C by omega) heq
      omega
  · by_cases hn2 : n < st.fill + data.length
    · rw [if_pos hn2, if_neg hn1,
        rot_getElem? _ C _ _ hB'len hrp (by omega)]
      have hidx : (st.read_pos + n) % C = (st.write_pos + (n - st.fill)) % C := by
        rw [hcons, Nat.mod_add_mod]
        congr 1
        omega
      rw [hidx, wrapWrite_getElem?_new _ _ _ _ _ hbuf hwp (by omega) (by omega)]
    · rw [if_neg hn2, if_neg hn1, List.getElem?_eq_none (by omega)]

theorem take_contents_split (C : Nat) (st : RB) (n : Nat)
    (hbuf : st.buf.length = C) (hrp : st.read_pos < C) (hfill : st.fill ≤ C)
    (hnfill : n ≤ st.fill) :
    (contents st).take n =
      (st.buf.drop st.read_pos).take (min (C - st.read_pos) n)
        ++ st.buf.take (n - min (C - st.read_pos) n) := by
  rw [contents, List.take_take, Nat.min_eq_left hnfill,
    List.take_append_eq_append_take]
  have hdl : (st.buf.drop st.read_pos).length = C - st.read_pos := by
    simp [hbuf]
  rw [hdl]
  by_cases h : n ≤ C - st.read_pos
  · rw [Nat.min_eq_right h]
    have h0 : n - (C - st.read_pos) = 0 := by omega
    simp [h0, Nat.sub_self]
  · rw [Nat.min_eq_left (by omega)]
    congr 1
    · rw [List.take_of_length_le (by rw [hdl]; omega),
        List.take_of_length_le (by rw [hdl])]
    · rw [List.take_take, Nat.min_eq_left (by simp [hbuf]; omega)]

theorem pull_fst_eq (C : Nat) (st : RB) (len : Nat)
    (hbuf : st.buf.length = C) (hrp : st.read_pos < C) (hfill : st.fill ≤ C) :
    (pull C st len).1 =
      (contents st).take (min len st.fill)
        ++ List.replicate (len - min len st.fill) 0 := by
  rw [pull]
  simp only [pull_min]
  rw [take_contents_split C st (min len st.fill) hbuf hrp hfill
    (Nat.min_le_right _ _), List.append_assoc]

theorem contents_pull (C : Nat) (st : RB) (len : Nat)
    (hbuf : st.buf.length = C) (hrp : st.read_pos < C) (hfill : st.fill ≤ C) :
    contents (pull C st len).2 = (contents st).drop (min len st.fill) := by
  have hC : 0 < C := by omega
  rw [pull_snd_eq]
  unfold contents
  simp only
  set n := min len st.fill with hn
  have hnfill : n ≤ st.fill := Nat.min_le_right _ _
  apply List.ext_getElem?
  intro m
  rw [List.getElem?_take]
  by_cases hm : m < st.fill - n
  · rw [if_pos hm,
      rot_getElem? _ C _ _ hbuf (Nat.mod_lt _ hC) (by omega),
      Nat.mod_add_mod]
    have hidx : st.read_pos + n + m = st.read_pos + (n + m) := by omega
    rw [hidx, ← rot_getElem? st.buf C _ _ hbuf hrp (by omega),
      List.getElem?_drop, List.getElem?_take_of_lt (by omega)]
  · rw [if_neg hm, Eq.comm, List.getElem?_eq_none]
    have : (contents st).length = st.fill := contents_length C st hbuf hfill
    simp [this]
    omega
/-! Operation sequences over the ring buffer, for the invariant and FIFO
claims. -/

/-- One ring-buffer operation: a producer push (`play_audio_frame`), a
consumer pull (`audio_callback`), or a reset (`video_player_scrub` /
`video_player_cleanup`). -/
inductive Op where
  | push : List Nat → Op
  | pull : Nat → Op
  | reset : Op
  deriving Repr, DecidableEq

/-- Effect of one operation on the ring-buffer state (the pull's output
bytes are discarded here). -/
def step (C : Nat) (st : RB) : Op → RB
  | Op.push data => push C st data
  | Op.pull len => (pull C st len).2
  | Op.reset => reset st

/-- Runs a sequence of operations from a given state. -/
def run (C : Nat) (st : RB) : List Op → RB
  | [] => st
  | op :: ops => run C (step C st op) ops

/-- Initial ring-buffer state: the zero-initialised global array with all
three integers 0. -/
def init (C : Nat) : RB := ⟨List.replicate C 0, 0, 0, 0⟩

theorem inv_init (C : Nat) (hC : 0 < C) : Inv C (init C) :=
  ⟨by simp [init], hC, hC, Nat.zero_le _⟩

theorem inv_step (C : Nat) (st : RB) (op : Op) (hC : 0 < C) (h : Inv C st) :
    Inv C (step C st op) := by
  obtain ⟨hbuf, hrp, hwp, hfill⟩ := h
  cases op with
  | push data =>
      by_cases hacc : data.length ≤ C - st.fill
      · simp only [step]
        rw [push_accept_eq C st data hfill hacc]
        exact ⟨by rw [copyInto_length, copyInto_length, hbuf], hrp,
          Nat.mod_lt _ hC, show st.fill + data.length ≤ C by omega⟩
      · simp only [step]
        rw [push_reject_eq C st data hfill (by omega)]
        exact ⟨hbuf, hrp, hwp, hfill⟩
  | pull len =>
      simp only [step]
      rw [pull_snd_eq]
      exact ⟨hbuf, Nat.mod_lt _ hC, hwp,
        show st.fill - min len st.fill ≤ C by omega⟩
  | reset => exact ⟨hbuf, hC, hC, Nat.zero_le _⟩

theorem inv_run (C : Nat) (hC : 0 < C) (ops : List Op) (st : RB)
    (h : Inv C st) : Inv C (run C st ops) := by
  induction ops generalizing st with
  | nil => exact h
  | cons op ops ih => exact ih _ (inv_step C st op hC h)

/-- C1: a push either accepts the whole chunk (when it fits in the free
space) — every chunk byte lands at its wrapped position after `write_pos`,
no other array cell changes, `fill` grows by exactly the chunk length — or,
when the chunk does not fit, drops it entirely: state, cursors and array
are all unchanged, with no partial write at the wrap boundary. -/
theorem push_whole_chunk_or_drop (C : Nat) (st : RB) (data : List Nat)
    (h : Inv C st) :
    (data.length ≤ C - st.fill →
      (push C st data).fill = st.fill + data.length ∧
      (push C st data).read_pos = st.read_pos ∧
      (push C st data).write_pos = (st.write_pos + data.length) % C ∧
      (push C st data).buf.length = C ∧
      (∀ i, i < data.length →
        ((push C st data).buf)[(st.write_pos + i) % C]? = data[i]?) ∧
      (∀ p, p < C → (∀ i, i < data.length → p ≠ (st.write_pos + i) % C) →
        ((push C st data).buf)[p]? = st.buf[p]?)) ∧
    (C - st.fill < data.length → push C st data = st) := by
  obtain ⟨hbuf, hrp, hwp, hfill⟩ := h
  constructor
  · intro hacc
    rw [push_accept_eq C st data hfill hacc]
    refine ⟨rfl, rfl, rfl, ?_, ?_, ?_⟩
    · rw [copyInto_length, copyInto_length, hbuf]
    · intro i hi
      exact wrapWrite_getElem?_new st.buf data C st.write_pos i hbuf hwp
        (by omega) hi
    · intro p hp hnot
      exact wrapWrite_getElem?_old st.buf data C st.write_pos p hbuf hwp
        (by omega) hp hnot
  · intro hrej
    exact push_reject_eq C st data hfill hrej

/-- Witness for C1 at capacity 4 with a wrapping two-byte chunk. -/
theorem push_whole_chunk_or_drop_witness :
    Inv 4 ⟨[9, 9, 9, 9], 3, 1, 2⟩ ∧
    (([5, 6] : List Nat).length ≤ 4 - (RB.mk [9, 9, 9, 9] 3 1 2).fill →
      (push 4 ⟨[9, 9, 9, 9], 3, 1, 2⟩ [5, 6]).fill = 2 + ([5, 6] : List Nat).length ∧
      (push 4 ⟨[9, 9, 9, 9], 3, 1, 2⟩ [5, 6]).read_pos = 1 ∧
      (push 4 ⟨[9, 9, 9, 9], 3, 1, 2⟩ [5, 6]).write_pos = (3 + ([5, 6] : List Nat).length) % 4 ∧
      (push 4 ⟨[9, 9, 9, 9], 3, 1, 2⟩ [5, 6]).buf.length = 4 ∧
      (∀ i, i < ([5, 6] : List Nat).length →
        ((push 4 ⟨[9, 9, 9, 9], 3, 1, 2⟩ [5, 6]).buf)[(3 + i) % 4]? = ([5, 6] : List Nat)[i]?) ∧
      (∀ p, p < 4 → (∀ i, i < ([5, 6] : List Nat).length → p ≠ (3 + i) % 4) →
        ((push 4 ⟨[9, 9, 9, 9], 3, 1, 2⟩ [5, 6]).buf)[p]? = ([9, 9, 9, 9] : List Nat)[p]?)) ∧
    (4 - (RB.mk [9, 9, 9, 9] 3 1 2).fill < ([5, 6] : List Nat).length →
      push 4 ⟨[9, 9, 9, 9], 3, 1, 2⟩ [5, 6] = ⟨[9, 9, 9, 9], 3, 1, 2⟩) :=
  ⟨by decide, push_whole_chunk_or_drop 4 ⟨[9, 9, 9, 9], 3, 1, 2⟩ [5, 6] (by decide)⟩

/-- C2: a pull of `len` bytes returns exactly the first `min(len, fill)`
logical bytes of the buffer (starting at `read_pos`, wrapping around
capacity) followed by `len - min(len, fill)` zero bytes, always a
full-length output; `read_pos` advances by the copied count modulo the
capacity, `fill` decreases by exactly the copied count, and neither
`write_pos` nor the backing array changes. -/
theorem pull_copies_min_then_zero_fills (C : Nat) (st : RB) (len : Nat)
    (h : Inv C st) :
    (pull C st len).1 =
      (contents st).take (min len st.fill)
        ++ List.replicate (len - min len st.fill) 0 ∧
    (pull C st len).1.length = len ∧
    (pull C st len).2.read_pos = (st.read_pos + min len st.fill) % C ∧
    (pull C st len).2.fill = st.fill - min len st.fill ∧
    (pull C st len).2.write_pos = st.write_pos ∧
    (pull C st len).2.buf = st.buf := by
  obtain ⟨hbuf, hrp, hwp, hfill⟩ := h
  refine ⟨pull_fst_eq C st len hbuf hrp hfill, ?_, ?_, ?_, ?_, ?_⟩
  · rw [pull_fst_eq C st len hbuf hrp hfill]
    have := contents_length C st hbuf hfill
    simp [this]
  · rw [pull_snd_eq]
  · rw [pull_snd_eq]
  · rw [pull_snd_eq]
  · rw [pull_snd_eq]

/-- Witness for C2 at capacity 4, with a wrapping read and an underrun. -/
theorem pull_copies_min_then_zero_fills_witness :
    Inv 4 ⟨[1, 2, 3, 4], 2, 3, 3⟩ ∧
    ((pull 4 ⟨[1, 2, 3, 4], 2, 3, 3⟩ 5).1 =
      (contents ⟨[1, 2, 3, 4], 2, 3, 3⟩).take (min 5 3)
        ++ List.replicate (5 - min 5 3) 0 ∧
    (pull 4 ⟨[1, 2, 3, 4], 2, 3, 3⟩ 5).1.length = 5 ∧
    (pull 4 ⟨[1, 2, 3, 4], 2, 3, 3⟩ 5).2.read_pos = (3 + min 5 3) % 4 ∧
    (pull 4 ⟨[1, 2, 3, 4], 2, 3, 3⟩ 5).2.fill = 3 - min 5 3 ∧
    (pull 4 ⟨[1, 2, 3, 4], 2, 3, 3⟩ 5).2.write_pos = 2 ∧
    (pull 4 ⟨[1, 2, 3, 4], 2, 3, 3⟩ 5).2.buf = [1, 2, 3, 4]) :=
  ⟨by decide, pull_copies_min_then_zero_fills 4 ⟨[1, 2, 3, 4], 2, 3, 3⟩ 5 (by decide)⟩
/-- C3: starting from the empty buffer, every sequence of push, pull and
reset operations keeps the structural invariant (`0 <= fill <= capacity`,
both cursors in `[0, capacity)`), the invariant is preserved by every
single operation, and each operation changes `fill` by exactly the byte
count it actually accepted (0 for a refused push) or delivered
(`min(len, fill)` for a pull), never by the requested count. -/
theorem fill_invariant_all_sequences (C : Nat) (hC : 0 < C)
    (ops : List Op) (st : RB) (op : Op) (hst : Inv C st) :
    Inv C (run C (init C) ops) ∧
    Inv C (step C st op) ∧
    (step C st op).fill =
      (match op with
       | Op.push data =>
           if data.length ≤ C - st.fill then st.fill + data.length else st.fill
       | Op.pull len => st.fill - min len st.fill
       | Op.reset => 0) := by
  obtain ⟨hbuf, hrp, hwp, hfill⟩ := hst
  refine ⟨inv_run C hC ops (init C) (inv_init C hC),
    inv_step C st op hC ⟨hbuf, hrp, hwp, hfill⟩, ?_⟩
  cases op with
  | push data =>
      by_cases hacc : data.length ≤ C - st.fill
      · simp only [step]
        rw [push_accept_eq C st data hfill hacc, if_pos hacc]
      · simp only [step]
        rw [push_reject_eq C st data hfill (by omega), if_neg hacc]
  | pull len =>
      simp only [step]
      rw [pull_snd_eq]
  | reset => rfl

/-- Witness for C3 at capacity 4 with a refused push. -/
theorem fill_invariant_all_sequences_witness :
    (0 < 4 ∧ Inv 4 ⟨[1, 2, 3, 4], 3, 0, 3⟩) ∧
    (Inv 4 (run 4 (init 4) [Op.push [1, 2], Op.pull 1, Op.reset]) ∧
     Inv 4 (step 4 ⟨[1, 2, 3, 4], 3, 0, 3⟩ (Op.push [7, 8])) ∧
     (step 4 ⟨[1, 2, 3, 4], 3, 0, 3⟩ (Op.push [7, 8])).fill =
       (if ([7, 8] : List Nat).length ≤ 4 - (RB.mk [1, 2, 3, 4] 3 0 3).fill
        then (RB.mk [1, 2, 3, 4] 3 0 3).fill + ([7, 8] : List Nat).length
        else (RB.mk [1, 2, 3, 4] 3 0 3).fill)) :=
  ⟨⟨by decide, by decide⟩,
    fill_invariant_all_sequences 4 (by decide)
      [Op.push [1, 2], Op.pull 1, Op.reset] ⟨[1, 2, 3, 4], 3, 0, 3⟩
      (Op.push [7, 8]) (by decide)⟩

/-! FIFO machinery for C4. -/

/-- Concatenation of all bytes offered to `push` along an operation
sequence. -/
def pushedBytes : List Op → List Nat
  | [] => []
  | Op.push data :: ops => data ++ pushedBytes ops
  | _ :: ops => pushedBytes ops

/-- Concatenation of the real (non-zero-filled) bytes returned by the
pulls along an operation sequence: each pull contributes the first
`min(len, fill)` bytes of its output. -/
def pulledReal (C : Nat) (st : RB) : List Op → List Nat
  | [] => []
  | Op.pull len :: ops =>
      (pull C st len).1.take (min len st.fill)
        ++ pulledReal C (pull C st len).2 ops
  | op :: ops => pulledReal C (step C st op) ops

/-- Checks that no push along the sequence is refused for lack of space. -/
def noDrop (C : Nat) (st : RB) : List Op → Bool
  | [] => true
  | Op.push data :: ops =>
      decide (data.length ≤ C - st.fill) && noDrop C (push C st data) ops
  | op :: ops => noDrop C (step C st op) ops

/-- Full coherence invariant: the structural invariant plus the write
cursor sitting exactly `fill` bytes (modulo capacity) past the read
cursor. -/
def InvQ (C : Nat) (st : RB) : Prop :=
  Inv C st ∧ st.write_pos = (st.read_pos + st.fill) % C

theorem invQ_push (C : Nat) (st : RB) (data : List Nat) (hC : 0 < C)
    (h : InvQ C st) (hacc : data.length ≤ C - st.fill) :
    InvQ C (push C st data) := by
  obtain ⟨hinv, hcons⟩ := h
  refine ⟨inv_step C st (Op.push data) hC hinv, ?_⟩
  rw [push_accept_eq C st data hinv.2.2.2 hacc]
  simp only
  rw [hcons, Nat.mod_add_mod, Nat.add_assoc]

theorem invQ_pull (C : Nat) (st : RB) (len : Nat) (hC : 0 < C)
    (h : InvQ C st) : InvQ C (pull C st len).2 := by
  obtain ⟨hinv, hcons⟩ := h
  refine ⟨inv_step C st (Op.pull len) hC hinv, ?_⟩
  rw [pull_snd_eq]
  simp only
  rw [Nat.mod_add_mod, hcons]
  congr 1
  have := Nat.min_le_right len st.fill
  omega

theorem pull_real_part (C : Nat) (st : RB) (len : Nat)
    (hbuf : st.buf.length = C) (hrp : st.read_pos < C) (hfill : st.fill ≤ C) :
    (pull C st len).1.take (min len st.fill)
      = (contents st).take (min len st.fill) := by
  rw [pull_fst_eq C st len hbuf hrp hfill,
    List.take_append_of_le_length
      (by rw [List.length_take, contents_length C st hbuf hfill]; omega),
    List.take_take, Nat.min_self]

theorem pulledReal_prefix_aux (C : Nat) (hC : 0 < C) (ops : List Op)
    (st : RB) (hst : InvQ C st) (hnd : noDrop C st ops = true)
    (hnr : Op.reset ∉ ops) :
    ∃ t, contents st ++ pushedBytes ops = pulledReal C st ops ++ t := by
  induction ops generalizing st with
  | nil => exact ⟨contents st, by simp [pushedBytes, pulledReal]⟩
  | cons op ops ih =>
      have hnr' : Op.reset ∉ ops := fun hmem => hnr (List.mem_cons_of_mem _ hmem)
      cases op with
      | push data =>
          have hnd2 : (decide (data.length ≤ C - st.fill)
              && noDrop C (push C st data) ops) = true := hnd
          simp only [Bool.and_eq_true, decide_eq_true_eq] at hnd2
          obtain ⟨hacc, hnd'⟩ := hnd2
          obtain ⟨t, ht⟩ := ih (push C st data) (invQ_push C st data hC hst hacc)
            hnd' hnr'
          refine ⟨t, ?_⟩
          show contents st ++ (data ++ pushedBytes ops)
            = pulledReal C (push C st data) ops ++ t
          rw [← List.append_assoc,
            ← contents_push C st data hst.1.1 hst.1.2.1 hst.1.2.2.1
              hst.1.2.2.2 hst.2 hacc]
          exact ht
      | pull len =>
          have hnd2 : noDrop C (pull C st len).2 ops = true := hnd
          obtain ⟨t, ht⟩ := ih (pull C st len).2 (invQ_pull C st len hC hst)
            hnd2 hnr'
          refine ⟨t, ?_⟩
          show contents st ++ pushedBytes ops
            = ((pull C st len).1.take (min len st.fill)
                ++ pulledReal C (pull C st len).2 ops) ++ t
          rw [List.append_assoc,
            pull_real_part C st len hst.1.1 hst.1.2.1 hst.1.2.2.2]
          rw [contents_pull C st len hst.1.1 hst.1.2.1 hst.1.2.2.2] at ht
          conv_lhs => rw [← List.take_append_drop (min len st.fill) (contents st),
            List.append_assoc, ht]
      | reset => exact absurd (List.mem_cons_self _ _) hnr

/-- C4: over any interleaving of pushes and pulls starting from the empty
buffer in which no push is ever refused for lack of space, the
concatenation of all real (non-zero-filled) bytes returned by the pulls is
a prefix of the concatenation of all bytes pushed, in the same order, even
across arbitrarily many wrap-arounds of the capacity. -/
theorem fifo_order_preserved (C : Nat) (hC : 0 < C) (ops : List Op)
    (hnd : noDrop C (init C) ops = true) (hnr : Op.reset ∉ ops) :
    ∃ t, pushedBytes ops = pulledReal C (init C) ops ++ t := by
  have hinvq : InvQ C (init C) := ⟨inv_init C hC, by simp [init]⟩
  have := pulledReal_prefix_aux C hC ops (init C) hinvq hnd hnr
  rwa [show contents (init C) = [] from by simp [contents, init],
    List.nil_append] at this

/-- Witness for C4 at capacity 4: the cumulative traffic wraps the buffer
and the pulled bytes 1,2,3,4,5 are a prefix of the pushed bytes
1,2,3,4,5,6. -/
theorem fifo_order_preserved_witness :
    (0 < 4 ∧
      noDrop 4 (init 4)
        [Op.push [1, 2, 3], Op.pull 2, Op.push [4, 5, 6], Op.pull 3] = true ∧
      Op.reset ∉
        [Op.push [1, 2, 3], Op.pull 2, Op.push [4, 5, 6], Op.pull 3]) ∧
    ∃ t, pushedBytes [Op.push [1, 2, 3], Op.pull 2, Op.push [4, 5, 6], Op.pull 3]
      = pulledReal 4 (init 4)
          [Op.push [1, 2, 3], Op.pull 2, Op.push [4, 5, 6], Op.pull 3] ++ t :=
  ⟨⟨by decide, by decide, by decide⟩,
    fifo_order_preserved 4 (by decide)
      [Op.push [1, 2, 3], Op.pull 2, Op.push [4, 5, 6], Op.pull 3]
      (by decide) (by decide)⟩
/-! Player-level model: application state, seek, clock, init, teardown. -/

/-- Application state (main.cpp / config.hpp). -/
inductive AppState where
  | STATE_MENU
  | STATE_PLAYING
  deriving Repr, DecidableEq

/-- Direction hints passed to `av_seek_frame` in `video_player_scrub`. -/
inductive SeekFlag where
  | AVSEEK_FLAG_ANY
  | AVSEEK_FLAG_BACKWARD
  deriving Repr, DecidableEq

/-- FFmpeg's `AV_TIME_BASE` constant (microseconds per second). -/
def AV_TIME_BASE : Int := 1000000

/-- Observable calls into the external collaborators (demuxer, decoders,
lock, resource teardown), recorded in program order. -/
inductive Ev where
  | av_seek_frame : Int → SeekFlag → Ev
  | lock_audio : Ev
  | unlock_audio : Ev
  | ring_reset : Ev
  | avcodec_flush_audio : Ev
  | avcodec_flush_video : Ev
  | set_app_state : AppState → Ev
  | send_flush_pkt : Ev
  | push_ring : Nat → Ev
  | wait_fill_zero : Ev
  | free_resources : Ev
  deriving Repr, DecidableEq

/-- Player state touched by scrub: the ring buffer and the playback clock
`current_pts_seconds` (an `int64_t` in the source, modelled as `Int`). -/
structure VP where
  rb : RB
  current_pts_seconds : Int
  deriving Repr, DecidableEq

/-- Model of `video_player_scrub` (video_player.cpp lines 161-181): computes
`seek_target = (current_pts_seconds + dt) * AV_TIME_BASE`, seeks with the
ANY hint when `dt > 0` and the BACKWARD hint otherwise, then under the audio
lock zeroes `fill`, `read_pos` and `write_pos`, then flushes the audio and
video codec buffers.  Returns the new state and the call trace. -/
def video_player_scrub (st : VP) (dt : Int) : VP × List Ev :=
  let seek_target_seconds : Int := st.current_pts_seconds + dt
  let seek_target : Int := seek_target_seconds * AV_TIME_BASE
  ({ st with rb := reset st.rb },
   [if dt > 0 then Ev.av_seek_frame seek_target SeekFlag.AVSEEK_FLAG_ANY
    else Ev.av_seek_frame seek_target SeekFlag.AVSEEK_FLAG_BACKWARD,
    Ev.lock_audio, Ev.ring_reset, Ev.unlock_audio,
    Ev.avcodec_flush_audio, Ev.avcodec_flush_video])

/-- Model of `video_player_get_current_time` (lines 191-193). -/
def video_player_get_current_time (st : VP) : Int :=
  st.current_pts_seconds

/-- Outcomes of the external demuxer/decoder calls made during
`video_player_init`, abstracting the collaborator. -/
structure InitEnv where
  open_ok : Bool
  audio_stream_index : Int
  video_stream_index : Int
  audio_codec_ok : Bool
  video_codec_ok : Bool
  deriving Repr, DecidableEq

/-- Model of `video_player_init` (lines 110-152): returns -1 when the
container cannot be opened, when either best-stream lookup fails (negative
index), or when either codec context cannot be opened; returns 0 on full
success. -/
def video_player_init (env : InitEnv) : Int :=
  if ¬ env.open_ok then -1
  else if env.audio_stream_index < 0 ∨ env.video_stream_index < 0 then -1
  else if ¬ env.audio_codec_ok ∨ ¬ env.video_codec_ok then -1
  else 0

/-- Model of `video_player_start` (lines 154-159): the source calls
`video_player_init` but IGNORES its return value and unconditionally
executes `*app_state = STATE_PLAYING`.  Returns the resulting app state
paired with the (discarded) init result. -/
def video_player_start (env : InitEnv) (app_state : AppState) :
    AppState × Int :=
  (AppState.STATE_PLAYING, video_player_init env)

/-- One decoded video frame as seen by the dispatch loop: whether its pixel
format is `AV_PIX_FMT_YUV420P`, and its presentation timestamp. -/
structure FrameIn where
  is_yuv420p : Bool
  pts : Int
  deriving Repr, DecidableEq

/-- Model of the clock update at lines 218-220: for a frame in the expected
pixel format, `current_pts_seconds = frame->pts * av_q2d(time_base)` — the
`double` arithmetic of `av_q2d` is abstracted to exact rational arithmetic,
and the implicit conversion to `int64_t` truncates toward zero, which is
`Int.tdiv` by the time-base denominator.  A frame in any other pixel format
leaves the clock untouched (the whole branch at line 218 is skipped). -/
def update_pts_on_frame (cur : Int) (f : FrameIn) (tb_num tb_den : Int) :
    Int :=
  if f.is_yuv420p then (f.pts * tb_num).tdiv tb_den else cur

/-- C5: scrub seeks to `(current_pts_seconds + dt) * AV_TIME_BASE` with the
any-frame hint exactly when `dt > 0` and the backward hint otherwise, then
zeroes `fill`, `read_pos` and `write_pos` under the ring buffer's lock, and
only afterwards flushes the audio and video decoders; `fill` is exactly 0
when scrub returns. -/
theorem scrub_seek_reset_flush (st : VP) (dt : Int) :
    (video_player_scrub st dt).2 =
      [Ev.av_seek_frame ((st.current_pts_seconds + dt) * AV_TIME_BASE)
         (if dt > 0 then SeekFlag.AVSEEK_FLAG_ANY
          else SeekFlag.AVSEEK_FLAG_BACKWARD),
       Ev.lock_audio, Ev.ring_reset, Ev.unlock_audio,
       Ev.avcodec_flush_audio, Ev.avcodec_flush_video] ∧
    (video_player_scrub st dt).1.rb.fill = 0 ∧
    (video_player_scrub st dt).1.rb.read_pos = 0 ∧
    (video_player_scrub st dt).1.rb.write_pos = 0 := by
  refine ⟨?_, rfl, rfl, rfl⟩
  simp only [video_player_scrub]
  split <;> simp_all

/-- C6 (evidence of the code bug): when the container cannot even be opened,
`video_player_init` reports failure (-1), yet `video_player_start` still
moves the application state to `STATE_PLAYING`, because the source discards
the init result. -/
theorem start_sets_playing_even_on_init_failure :
    video_player_init ⟨false, -1, -1, false, false⟩ = -1 ∧
    (video_player_start ⟨false, -1, -1, false, false⟩
        AppState.STATE_MENU).1 = AppState.STATE_PLAYING := by
  decide

/-- C9: scrub never touches `current_pts_seconds`; the clock keeps its
pre-scrub value, and is reassigned only when a decoded frame in the expected
pixel format supplies its own timestamp (a frame in any other format leaves
it unchanged). -/
theorem scrub_preserves_clock (st : VP) (dt : Int) (cur : Int)
    (pts tb_num tb_den : Int) :
    (video_player_scrub st dt).1.current_pts_seconds
        = st.current_pts_seconds ∧
    video_player_get_current_time (video_player_scrub st dt).1
        = video_player_get_current_time st ∧
    update_pts_on_frame cur ⟨true, pts⟩ tb_num tb_den
        = (pts * tb_num).tdiv tb_den ∧
    update_pts_on_frame cur ⟨false, pts⟩ tb_num tb_den = cur :=
  ⟨rfl, rfl, rfl, rfl⟩
/-- C10: the playback clock is quantized to whole seconds — the stored
clock is the toward-zero truncation of the exact product
`pts * (tb_num / tb_den)` (its magnitude is the Euclidean quotient of the
magnitudes, so the sub-second fraction is discarded),
`video_player_get_current_time` returns that integer unchanged, and the
scrub target is computed as `(current_pts_seconds + dt) * AV_TIME_BASE`
from the truncated value. -/
theorem clock_quantized_to_whole_seconds (st : VP) (cur pts tb_num tb_den dt : Int)
    (h : 0 < tb_den) :
    update_pts_on_frame cur ⟨true, pts⟩ tb_num tb_den
        = (pts * tb_num).tdiv tb_den ∧
    (update_pts_on_frame cur ⟨true, pts⟩ tb_num tb_den).natAbs
        = (pts * tb_num).natAbs / tb_den.natAbs ∧
    tb_den.natAbs * ((pts * tb_num).natAbs / tb_den.natAbs)
        ≤ (pts * tb_num).natAbs ∧
    (pts * tb_num).natAbs
        < tb_den.natAbs * ((pts * tb_num).natAbs / tb_den.natAbs + 1) ∧
    video_player_get_current_time st = st.current_pts_seconds ∧
    (video_player_scrub st dt).2.head? = some (Ev.av_seek_frame
        ((video_player_get_current_time st + dt) * AV_TIME_BASE)
        (if dt > 0 then SeekFlag.AVSEEK_FLAG_ANY
         else SeekFlag.AVSEEK_FLAG_BACKWARD)) := by
  have hb : 0 < tb_den.natAbs := by
    rcases tb_den with n | n
    · cases n with
      | zero => omega
      | succ k => exact Nat.succ_pos _
    · exact absurd h (by exact of_decide_eq_false rfl)
  refine ⟨rfl, ?_, ?_, ?_, rfl, ?_⟩
  · show ((pts * tb_num).tdiv tb_den).natAbs = _
    rw [Int.natAbs_tdiv]
    rfl
  · set a := (pts * tb_num).natAbs
    set b := tb_den.natAbs
    exact Nat.le.intro (Nat.div_add_mod a b)
  · set a := (pts * tb_num).natAbs
    set b := tb_den.natAbs
    calc a = b * (a / b) + a % b := (Nat.div_add_mod a b).symm
      _ < b * (a / b) + b := Nat.add_lt_add_left (Nat.mod_lt _ hb) _
      _ = b * (a / b + 1) := by ring
  · simp only [video_player_scrub, video_player_get_current_time]
    split <;> simp_all

/-- Witness for C10 at a concrete frame: pts 7, time base 2/3, scrub by -2. -/
theorem clock_quantized_to_whole_seconds_witness :
    (0 : Int) < 3 ∧
    (update_pts_on_frame 0 ⟨true, 7⟩ 2 3 = ((7 : Int) * 2).tdiv 3 ∧
    (update_pts_on_frame 0 ⟨true, 7⟩ 2 3).natAbs
        = ((7 : Int) * 2).natAbs / (3 : Int).natAbs ∧
    (3 : Int).natAbs * (((7 : Int) * 2).natAbs / (3 : Int).natAbs)
        ≤ ((7 : Int) * 2).natAbs ∧
    ((7 : Int) * 2).natAbs
        < (3 : Int).natAbs * (((7 : Int) * 2).natAbs / (3 : Int).natAbs + 1) ∧
    video_player_get_current_time ⟨⟨[], 0, 0, 0⟩, 5⟩
        = (VP.mk ⟨[], 0, 0, 0⟩ 5).current_pts_seconds ∧
    (video_player_scrub ⟨⟨[], 0, 0, 0⟩, 5⟩ (-2)).2.head?
        = some (Ev.av_seek_frame
            ((video_player_get_current_time ⟨⟨[], 0, 0, 0⟩, 5⟩ + (-2))
              * AV_TIME_BASE)
            (if (-2 : Int) > 0 then SeekFlag.AVSEEK_FLAG_ANY
             else SeekFlag.AVSEEK_FLAG_BACKWARD))) :=
  ⟨by decide,
    clock_quantized_to_whole_seconds ⟨⟨[], 0, 0, 0⟩, 5⟩ 0 7 2 3 (-2) (by decide)⟩
/-! End-of-stream drain (C7): model of the EOS branch of
`video_player_update` (lines 259-263) and of `video_player_cleanup`
(lines 266-299). -/

/-- Playback session state for the teardown model: the app state, the ring
buffer, and whether the decode/render resources are still allocated. -/
structure Session where
  app_state : AppState
  rb : RB
  resources : Bool
  deriving Repr, DecidableEq

/-- Intermediate ring-buffer states after each of the pushes performed
while draining the flushed audio decoder in `video_player_cleanup`
(lines 267-270); `flushed` lists the resampled byte chunks of the frames
the decoder still held. -/
def drainSnapshots (C : Nat) (rb : RB) : List (List Nat) → List RB
  | [] => []
  | chunk :: rest =>
      push C rb chunk :: drainSnapshots C (push C rb chunk) rest

/-- Model of the wait loop `while (ring_buffer_fill > 0) SDL_Delay(100);`
(lines 271-273): the asynchronous audio callback — the only other writer —
keeps pulling until the buffer is empty, and the loop exits exactly when
`fill` is observed 0, with `read_pos` having caught up with `write_pos`. -/
def wait_fill_drained (rb : RB) : RB :=
  { rb with fill := 0, read_pos := rb.write_pos }

/-- Model of `video_player_cleanup` (lines 266-299): submit the terminal
packet to the audio decoder, push every remaining decoded chunk into the
ring buffer, block until `fill` is observed 0, free the decode resources,
and finally zero `fill`, `read_pos` and `write_pos`.  Returns the final
session and the call trace. -/
def video_player_cleanup_model (C : Nat) (flushed : List (List Nat))
    (s : Session) : Session × List Ev :=
  let rb1 := flushed.foldl (push C) s.rb
  let rb2 := wait_fill_drained rb1
  ({ s with
      rb := { rb2 with fill := 0, read_pos := 0, write_pos := 0 }
      resources := false },
   Ev.send_flush_pkt :: flushed.map (fun c => Ev.push_ring c.length)
     ++ [Ev.wait_fill_zero, Ev.free_resources])

/-- Model of the EOS branch of `video_player_update` (lines 259-263): on a
negative packet-read result the source FIRST executes
`*app_state = STATE_MENU` and only then calls `video_player_cleanup`. -/
def eos_branch (C : Nat) (flushed : List (List Nat)) (s : Session) :
    Session × List Ev :=
  let s1 := { s with app_state := AppState.STATE_MENU }
  let r := video_player_cleanup_model C flushed s1
  (r.1, Ev.set_app_state AppState.STATE_MENU :: r.2)

/-- Session snapshots along the EOS branch: the initial state, then the
state after each event of the trace (state assignment, terminal packet,
each drain push, the wait, the resource release). -/
def eos_snapshots (C : Nat) (flushed : List (List Nat)) (s : Session) :
    List Session :=
  let s1 := { s with app_state := AppState.STATE_MENU }
  let rbAll := flushed.foldl (push C) s1.rb
  s :: s1 :: s1 ::
    ((drainSnapshots C s1.rb flushed).map (fun rb => { s1 with rb := rb })
      ++ [{ s1 with rb := wait_fill_drained rbAll },
          { s1 with
              rb := { (wait_fill_drained rbAll) with
                        fill := 0, read_pos := 0, write_pos := 0 }
              resources := false }])

/-- Formalisation of claim C7 as stated, over the snapshot sequence of the
EOS branch: whenever a snapshot is in the MENU state, some snapshot up to
and including it has already shown `fill = 0` (the drain completed before
or at the moment the state became MENU). -/
def MenuOnlyAfterDrain (snaps : List Session) : Prop :=
  ∀ i, (hi : i < snaps.length) →
    (snaps.get ⟨i, hi⟩).app_state = AppState.STATE_MENU →
    ((snaps.take (i + 1)).any (fun s => s.rb.fill == 0)) = true

instance (snaps : List Session) : Decidable (MenuOnlyAfterDrain snaps) :=
  Nat.decidableBallLT _ _

/-- C7 counterexample: with capacity 4, two bytes still buffered and no
frames left in the decoder, the EOS branch of the source sets the state to
MENU at its very first step, while `fill` is still 2 and no drain has been
observed — the state does become MENU while buffered audio remains. -/
theorem menu_before_drain_counterexample :
    ¬ MenuOnlyAfterDrain
        (eos_snapshots 4 []
          ⟨AppState.STATE_PLAYING, ⟨[1, 2, 0, 0], 2, 0, 2⟩, true⟩) := by
  decide

theorem drainSnapshots_length (C : Nat) (flushed : List (List Nat))
    (rb : RB) : (drainSnapshots C rb flushed).length = flushed.length := by
  induction flushed generalizing rb with
  | nil => rfl
  | cons c rest ih => simp [drainSnapshots, ih]

theorem getD_cons3 {α : Type} (a b c : α) (M : List α) (n : Nat) (d : α) :
    (a :: b :: c :: M).getD (n + 3) d = M.getD n d := rfl

theorem getD_cons1 {α : Type} (a : α) (M : List α) (n : Nat) (d : α) :
    (a :: M).getD (n + 3) d = M.getD (n + 2) d := rfl

theorem getD_pair_fst {α : Type} (l : List α) (x y d : α) :
    (l ++ [x, y]).getD l.length d = x := by
  induction l with
  | nil => rfl
  | cons h t ih => simpa using ih

theorem getD_pair_snd {α : Type} (l : List α) (x y d : α) :
    (l ++ [x, y]).getD (l.length + 1) d = y := by
  induction l with
  | nil => rfl
  | cons h t ih => simpa using ih

/-- C7 amended: on end of stream the source enters MENU first — the trace
begins with the state assignment — and then completes the drain protocol
before `video_player_update` returns: the terminal packet is sent, the
remaining frames are pushed, `fill` is observed 0 strictly before the
resource-release step, and the final session has `fill = 0`, zeroed
cursors, freed resources and state MENU.  (The claim's ordering — MENU only
after the drain — is the one part the code inverts.) -/
theorem eos_menu_first_then_drain (C : Nat) (flushed : List (List Nat))
    (s : Session) :
    (eos_branch C flushed s).2.head?
        = some (Ev.set_app_state AppState.STATE_MENU) ∧
    ((eos_snapshots C flushed s).getD (flushed.length + 3) s).rb.fill = 0 ∧
    ((eos_branch C flushed s).2.getD (flushed.length + 3) Ev.lock_audio)
        = Ev.free_resources ∧
    (eos_branch C flushed s).1.app_state = AppState.STATE_MENU ∧
    (eos_branch C flushed s).1.rb.fill = 0 ∧
    (eos_branch C flushed s).1.rb.read_pos = 0 ∧
    (eos_branch C flushed s).1.rb.write_pos = 0 ∧
    (eos_branch C flushed s).1.resources = false := by
  refine ⟨rfl, ?_, ?_, rfl, rfl, rfl, rfl, rfl⟩
  · simp only [eos_snapshots]
    rw [getD_cons3]
    have hlen : ((drainSnapshots C
        ({ s with app_state := AppState.STATE_MENU } : Session).rb
          flushed).map
        (fun rb =>
          ({ s with app_state := AppState.STATE_MENU, rb := rb } : Session))).length
        = flushed.length := by
      simp [drainSnapshots_length]
    rw [← hlen, getD_pair_fst]
    rfl
  · simp only [eos_branch, video_player_cleanup_model]
    have h2 := getD_cons1 (Ev.set_app_state AppState.STATE_MENU)
      ((Ev.send_flush_pkt :: flushed.map (fun c => Ev.push_ring c.length))
        ++ [Ev.wait_fill_zero, Ev.free_resources])
      flushed.length Ev.lock_audio
    rw [h2,
      show flushed.length + 2
          = (Ev.send_flush_pkt
              :: flushed.map (fun c => Ev.push_ring c.length)).length + 1
        from by simp,
      getD_pair_snd]
/-! Frame pacing (C8): model of the pacing code in `video_player_update`.
`ticks_per_frame` and `last_frame_ticks` are LOCAL variables of the
function, recomputed and re-read from the clock at EVERY call (lines
203-204); within a call, each presented frame runs the check at lines
245-252. -/

/-- Times recorded into `last_frame_ticks` at line 252, one per presented
frame of a single `video_player_update` call.  `last` is the current value
of `last_frame_ticks` (equal to the current clock value, since line 252
re-reads the clock right after the sleep, and line 204 reads it at call
start); each entry of `costs` is the time decode/convert of the next frame
consumes before the pacing check at line 245.  For each frame:
`elapsed = now - last`; if `elapsed < ticks_per_frame` the loop sleeps
`ticks_per_frame - elapsed`; then `last_frame_ticks` is re-read. -/
def present_times (tpf last : Nat) : List Nat → List Nat
  | [] => []
  | c :: costs =>
      let now := last + c
      let elapsed := now - last
      let t2 := if elapsed < tpf then now + (tpf - elapsed) else now
      t2 :: present_times tpf t2 costs

/-- One `video_player_update` call that presents `costs.length` video
frames, entered at clock time `t0`: line 204 initialises the local
`last_frame_ticks` to `t0`.  Returns the presentation times and the clock
value when the call ends. -/
def update_call (tpf t0 : Nat) (costs : List Nat) : List Nat × Nat :=
  (present_times tpf t0 costs, (present_times tpf t0 costs).getLastD t0)

/-- Baseline actually used for the first frame of the second of two
consecutive `video_player_update` calls separated by `gap` ticks of
render-loop work: the source re-reads the clock into the fresh local
`last_frame_ticks` at line 204, so the baseline is the second call's own
start time. -/
def baseline_second_call (tpf t0 : Nat) (costs1 : List Nat) (gap : Nat) :
    Nat :=
  (update_call tpf t0 costs1).2 + gap

/-- Time recorded at the last presented frame of the first call — what the
claim says the next frame's baseline should be. -/
def last_presented_first_call (tpf t0 : Nat) (costs1 : List Nat) : Nat :=
  (update_call tpf t0 costs1).2

/-- C8 counterexample: with `ticks_per_frame = 10`, a first call presenting
one frame (decode cost 3) and a 5-tick gap before the next call, the
baseline used for the next frame is the second call's start time (15), not
the previous presented frame's time (10) — `last_frame_ticks` is also
re-initialised at every call, not "only at each presented video frame". -/
theorem pacing_baseline_reset_each_call :
    baseline_second_call 10 0 [3] 5 ≠ last_presented_first_call 10 0 [3] := by
  decide

/-- C8 amended: within one `video_player_update` call the pacing recurrence
is exactly as claimed — each presented frame sleeps `ticks_per_frame -
elapsed` whenever `elapsed < ticks_per_frame`, making consecutive recorded
presentation times (seeded by the call's own start time) at least
`ticks_per_frame` apart — but `ticks_per_frame` and `last_frame_ticks` are
re-created at every call, so across calls the baseline is the call's start
time, not the previous presented frame's time. -/
theorem pacing_within_one_call (tpf last : Nat) (costs : List Nat)
    (t0 gap : Nat) (costs1 : List Nat) :
    List.Chain' (fun a b => a + tpf ≤ b)
      (last :: present_times tpf last costs) ∧
    baseline_second_call tpf t0 costs1 gap
      = (update_call tpf t0 costs1).2 + gap := by
  refine ⟨?_, rfl⟩
  induction costs generalizing last with
  | nil => simp [present_times]
  | cons c cs ih =>
      have hred : present_times tpf last (c :: cs)
          = (if last + c - last < tpf
              then last + c + (tpf - (last + c - last)) else last + c)
            :: present_times tpf
              (if last + c - last < tpf
                then last + c + (tpf - (last + c - last)) else last + c)
              cs := rfl
      rw [hred, List.chain'_cons]
      refine ⟨?_, ih _⟩
      split <;> omega
end Cafemp
